import Mathlib

/-!
Shallow embedding of the `hyper-utils` HTTP request-dispatch core and proofs
about it.

The embedding follows the source files of the crate:
* `src/error.rs`   — `HttpError`, `HttpResult` and their conversions;
* `src/lib.rs`     — header utilities (`str_header`, `str_header_first`,
  `client_ip`);
* `src/routing.rs` — `Route` (method table), `Router` (pattern matcher plus
  route tables) and their lookup;
* `src/app.rs`     — `Ctx`, `App` and the per-request orchestration `serve`.

Conventions: HTTP methods are represented by their `as_str()` form (a plain
string, compared exactly as `hyper::Method` compares); bodies are represented
by their byte content as a string; asynchronous handlers and hooks become
plain functions (each `await` point is sequential within one request, so the
pure functional semantics coincides); the `eprintln!` side effect of error
conversion is made explicit as a returned list of logged lines.

The path matcher itself lives in the external `matchit` crate, whose source is
not part of this repository; it is modelled from the specification (see the
`Matchit` definitions below, each marked `Modelled from the spec:`).
-/

/-- `http::StatusCode`: an HTTP status code, guaranteed by construction to lie
in the range 100..=999 (the invariant enforced by `StatusCode::from_u16`). -/
abbrev StatusCode := {n : Nat // 100 ≤ n ∧ n ≤ 999}

/-- `StatusCode::NOT_FOUND` -/
def StatusCode.notFound : StatusCode := ⟨404, by omega⟩

/-- `StatusCode::METHOD_NOT_ALLOWED` -/
def StatusCode.methodNotAllowed : StatusCode := ⟨405, by omega⟩

/-- `hyper::Body`, modelled by its full byte content. -/
abbrev Body := String

/-- `Body::empty()` -/
def Body.empty : Body := ""

/-- `hyper::Response<Body>`: the parts of a response this crate constructs
(status line and body; the dispatch core never touches response headers). -/
structure Response where
  status : StatusCode
  body : Body
deriving DecidableEq

/-- `hyper::HttpError` from `src/error.rs`: a typed HTTP failure. -/
structure HttpError where
  status : StatusCode
  body : Body
deriving DecidableEq

/-- `HttpError::new` -/
def HttpError.new (status : StatusCode) (body : Body) : HttpError := ⟨status, body⟩

/-- `HttpError::status`: a bare status code with an empty body. -/
def HttpError.ofStatus (status : StatusCode) : HttpError := HttpError.new status Body.empty

/-- `type HttpResult = Result<Response<Body>, HttpError>` -/
abbrev HttpResult := Except HttpError Response

/-- `Response::builder().status(code).body(body)`: the builder chain used by
`HttpError::response`. The builder records an error (here: returns `none`)
when the status is not a valid HTTP status code, mirroring the fallibility
that the `unwrap()` in `HttpError::response` discharges. -/
def responseBuild (code : Nat) (body : Body) : Option Response :=
  if h : 100 ≤ code ∧ code ≤ 999 then some ⟨⟨code, h⟩, body⟩ else none

/-- `HttpError::response` after its `unwrap()`: the response carrying the
error's status and body. -/
def HttpError.response (e : HttpError) : Response := ⟨e.status, e.body⟩

/-- `HttpError::response` as written in the source, including the fallible
builder whose result is unwrapped: `Response::builder().status(..).body(..)`. -/
def HttpError.responseChecked (e : HttpError) : Option Response :=
  responseBuild e.status.val e.body

/-- `impl From<(StatusCode, E)> for HttpError`: `eprintln!("{}", err)` then
`Self::new(code, Body::empty())`. Modelled returning the constructed error
together with the list of lines logged to stderr by the conversion. -/
def HttpError.fromPair (code : StatusCode) (err : String) : HttpError × List String :=
  (HttpError.new code Body.empty, [err])

/-- `hyper::HeaderMap`, modelled as a list of (canonical lowercase name, value)
pairs; `get` returns the first value stored for a name. Values are kept as
strings (the `to_str().ok()` step of `str_header` succeeds on them). -/
abbrev HeaderMap := List (String × String)

/-- `HeaderMap::get(name)` followed by `to_str().ok()`. -/
def HeaderMap.get (map : HeaderMap) (name : String) : Option String :=
  (map.find? (fun e => e.1 == name)).map (fun e => e.2)

/-- `str_header` from `src/lib.rs`: get str header value. -/
def str_header (map : HeaderMap) (name : String) : Option String :=
  map.get name

/-- `str::trim`, modelled over the characters of the string. -/
def trimChars (s : String) : String :=
  String.mk (((s.data.dropWhile Char.isWhitespace).reverse.dropWhile Char.isWhitespace).reverse)

/-- `str_header_first` from `src/lib.rs`: the part of the header value before
the first comma, trimmed. In the source `h.split(',').next().map(|it| it.trim())`;
`next()` on a `Split` iterator is always `Some`, so the result is `Some`
exactly when the header itself is present. -/
def str_header_first (map : HeaderMap) (name : String) : Option String :=
  (str_header map name).map
    (fun h => trimChars (String.mk (h.data.takeWhile (fun c => c ≠ ','))))

/-- `client_ip` from `src/lib.rs`: resolve client ip from headers —
fly-client-ip first, as a client can spoof x-forwarded-for. -/
def client_ip (map : HeaderMap) : Option String :=
  (str_header map "fly-client-ip").orElse
    (fun _ => str_header_first map "x-forwarded-for")

/-- `std::net::SocketAddr`, its ip kept in the textual form produced by
`addr.ip().to_string()`. -/
structure SocketAddr where
  ip : String
  port : Nat
deriving DecidableEq

/-- `http::request::Parts`: the immutable request head. -/
structure Parts where
  method : String
  path : String
  headers : HeaderMap
deriving DecidableEq

/-- `hyper::Request<Body>`: head plus body. -/
structure Request where
  method : String
  path : String
  headers : HeaderMap
  body : Body
deriving DecidableEq

/-- `Request::into_parts` -/
def Request.intoParts (r : Request) : Parts × Body :=
  (⟨r.method, r.path, r.headers⟩, r.body)

/-- `Ctx` from `src/app.rs`: the per-request context. -/
structure Ctx (S : Type) where
  addr : SocketAddr
  state : S
  parts : Parts

/-- `Ctx::ip`: `client_ip(&self.parts.headers)` with the connection address as
fallback. -/
def Ctx.ip {S : Type} (c : Ctx S) : String :=
  (client_ip c.parts.headers).getD c.addr.ip

/-- Strict lexicographic order on lists over a linear order; a strict prefix
is smaller than its extensions. -/
def lexLt {α : Type} [LinearOrder α] : List α → List α → Bool
  | [], [] => false
  | [], _ :: _ => true
  | _ :: _, [] => false
  | a :: as, b :: bs => if a < b then true else if a = b then lexLt as bs else false

/-- The order `MethodOrd` imposes: `self.0.as_str().cmp(other.0.as_str())`,
strict lexicographic comparison of the method names, character by character. -/
def methodLt (a b : String) : Bool := lexLt a.data b.data

/-- `Route<T>` from `src/routing.rs`: a `BTreeMap<MethodOrd, Handler<T>>`,
modelled as its entry list, kept strictly sorted by `methodLt` (the map's
iteration order). -/
structure Route (α : Type) where
  methods : List (String × α)
deriving DecidableEq

/-- `BTreeMap::insert` on the sorted entry list: replace the entry with an
equal key, otherwise insert at the ordered position. -/
def btreeInsert {α : Type} (k : String) (v : α) : List (String × α) → List (String × α)
  | [] => [(k, v)]
  | (k', v') :: rest =>
    if k = k' then (k, v) :: rest
    else if methodLt k k' then (k, v) :: (k', v') :: rest
    else (k', v') :: btreeInsert k v rest

/-- `Route::new`: an empty method table. -/
def Route.new {α : Type} : Route α := ⟨[]⟩

/-- `Route::add`: box the handler and insert it under the method; an existing
entry for the same method is overwritten. -/
def Route.add {α : Type} (r : Route α) (m : String) (h : α) : Route α :=
  ⟨btreeInsert m h r.methods⟩

/-- `Route::at`: `self.methods.get(&MethodOrd(method))` — exact lookup under
the `MethodOrd` comparison. -/
def Route.«at» {α : Type} (r : Route α) (m : String) : Option α :=
  (r.methods.find? (fun e => e.1 == m)).map (fun e => e.2)

/-- The `BTreeMap` representation invariant: entries strictly sorted by key. -/
def Route.wf {α : Type} (r : Route α) : Prop :=
  List.Pairwise (fun a b => methodLt a.1 b.1 = true) r.methods

/-- Modelled from the spec: one compiled segment of a route pattern of the
`matchit` crate (whose source is not part of this repository): a literal
(static) segment, a `:name` single-segment capture, or a `*name` trailing
capture. -/
inductive Seg where
  | lit (s : String)
  | param (name : String)
  | wild (name : String)
deriving DecidableEq

def Seg.isWild : Seg → Bool
  | .wild _ => true
  | _ => false

/-- Modelled from the spec: match precedence of a segment — a literal segment
outranks a `:name` capture at the same position, which outranks a `*name`
capture. Smaller rank is more specific. -/
def Seg.rank : Seg → Nat
  | .lit _ => 0
  | .param _ => 1
  | .wild _ => 2

/-- Splitting at '/' characters, as `str::split('/')` does: structural over the
character list. -/
def splitSlash : List Char → List (List Char)
  | [] => [[]]
  | c :: cs =>
    let r := splitSlash cs
    if c = '/' then [] :: r
    else
      match r with
      | [] => [[c]]
      | s :: rest => (c :: s) :: rest

/-- Modelled from the spec: parsing one pattern segment — `:x` is a named
single-segment capture, `*x` a named trailing capture, anything else literal. -/
def parseSeg : List Char → Seg
  | ':' :: rest => .param (String.mk rest)
  | '*' :: rest => .wild (String.mk rest)
  | cs => .lit (String.mk cs)

/-- Modelled from the spec: a compiled pattern, one `Seg` per '/'-separated
segment of the pattern string. -/
def parsePattern (s : String) : List Seg :=
  (splitSlash s.data).map parseSeg

/-- The '/'-separated segments of a request path. -/
def segsOf (s : String) : List String :=
  (splitSlash s.data).map String.mk

def joinSlash : List String → String
  | [] => ""
  | [x] => x
  | x :: xs => x ++ "/" ++ joinSlash xs

/-- Modelled from the spec: matching a compiled pattern against the segments
of a request path. A literal segment must be equal to the path segment, a
`:name` capture consumes one non-empty segment, a `*name` capture (legal only
in final position) consumes the non-empty remainder; captures are taken
verbatim from the path. -/
def matchSegs : List Seg → List String → Option (List (String × String))
  | [], [] => some []
  | [], _ :: _ => none
  | .wild n :: ps, xs =>
    if ps = [] ∧ xs ≠ [] then some [(n, joinSlash xs)] else none
  | .lit s :: ps, x :: xs => if s = x then matchSegs ps xs else none
  | .param n :: ps, x :: xs =>
    if x ≠ "" then (matchSegs ps xs).map (fun l => (n, x) :: l) else none
  | _ :: _, [] => none

/-- The precedence key of a compiled pattern: its segment ranks, in order. -/
def patKey (p : List Seg) : List Nat := p.map Seg.rank

/-- Modelled from the spec: strict lexicographic order on precedence keys; the
lexicographically smaller key denotes the more specific pattern
(longest-static-prefix precedence). -/
abbrev keyLt : List Nat → List Nat → Bool := lexLt

/-- Modelled from the spec: a `*name` capture may appear only as the final
segment of a pattern. -/
def wildOk (p : List Seg) : Bool := p.dropLast.all (fun s => !s.isWild)

/-- A segment with its capture name erased. -/
def Seg.shape : Seg → Seg
  | .lit s => .lit s
  | .param _ => .param ""
  | .wild _ => .wild ""

/-- Modelled from the spec: two patterns collide when they are equal up to the
names of their captures — they then match exactly the same concrete paths with
the same precedence key, so a path matching one could match either
ambiguously. -/
def ambiguous (p q : List Seg) : Bool :=
  decide (p.map Seg.shape = q.map Seg.shape)

/-- `Router<T>` from `src/routing.rs`: the compiled `matchit::Router` holding,
for each registered pattern, that pattern's route table. Modelled (from the
spec) as the list of compiled patterns in registration order. -/
structure Router (α : Type) where
  pats : List (List Seg × Route α)
deriving DecidableEq

/-- Modelled from the spec: `matchit::Router::insert`, which fails on a
trailing-wildcard capture that is not in final position and on a pattern
ambiguous with an already registered one. -/
def matchitInsert {α : Type} (acc : List (List Seg × Route α)) (pat : String)
    (route : Route α) : Except String (List (List Seg × Route α)) :=
  let p := parsePattern pat
  if wildOk p = false then .error "invalid catch-all"
  else if acc.any (fun q => ambiguous q.1 p) then .error "conflicting route"
  else .ok (acc ++ [(p, route)])

/-- The `for` loop of `Router::new`: insert the routes one by one, stopping at
the first failed insertion. -/
def routerNewAux {α : Type} (acc : List (List Seg × Route α)) :
    List (String × Route α) → Except String (List (List Seg × Route α))
  | [] => .ok acc
  | pr :: rest =>
    match matchitInsert acc pr.1 pr.2 with
    | .error msg => .error msg
    | .ok acc2 => routerNewAux acc2 rest

/-- `Router::new`: insert every route in order, `unwrap()`ping each insertion —
a failed insertion aborts construction (modelled as `Except.error`). -/
def Router.new {α : Type} (routes : List (String × Route α)) : Except String (Router α) :=
  (routerNewAux [] routes).map Router.mk

/-- The router holding no route, as `Router::new(vec![])` produces. -/
def Router.empty {α : Type} : Router α := ⟨[]⟩

/-- A matched entry: a registered (pattern, route table) pair together with
the captures the pattern bound on the path. -/
abbrev Matched (α : Type) := (List Seg × Route α) × List (String × String)

/-- The registered patterns matching a path, each with its captures, in
registration order. -/
def matchingOf {α : Type} (pats : List (List Seg × Route α)) (path : List String) :
    List ((List Seg × Route α) × List (String × String)) :=
  pats.filterMap (fun e => (matchSegs e.1 path).map (fun ps => (e, ps)))

def pickMin {α : Type} (best : (List Seg × Route α) × List (String × String)) :
    List ((List Seg × Route α) × List (String × String)) →
    (List Seg × Route α) × List (String × String)
  | [] => best
  | c :: cs => pickMin (if keyLt (patKey c.1.1) (patKey best.1.1) then c else best) cs

/-- Modelled from the spec: resolve a path to the matching pattern with the
smallest precedence key (longest-static-prefix precedence), or to nothing. -/
def Router.select {α : Type} (r : Router α) (path : List String) :
    Option ((List Seg × Route α) × List (String × String)) :=
  match matchingOf r.pats path with
  | [] => none
  | c :: cs => some (pickMin c cs)

/-- `Router::at`: resolve the path (`NotFound` with an empty body when no
pattern matches), collect the captured parameters, then look the method up in
the matched pattern's route table (`MethodNotAllowed` with an empty body when
absent). -/
def Router.«at» {α : Type} (r : Router α) (path : String) (method : String) :
    Except HttpError (List (String × String) × α) :=
  match Router.select r (segsOf path) with
  | none => .error (HttpError.new StatusCode.notFound Body.empty)
  | some c =>
    match Route.«at» c.1.2 method with
    | none => .error (HttpError.new StatusCode.methodNotAllowed Body.empty)
    | some h => .ok (c.2, h)

/-- The handler type `Handler<(Ctx<S>, Body)>`: a function of the context/body
pair and the captured parameter map, returning an `HttpResult`. -/
abbrev HandlerFn (S : Type) := Ctx S × Body → List (String × String) → HttpResult

/-- `App<S>` from `src/app.rs`: shared state, router, and the two hooks. The
pre hook returns either a request to continue with (`Except.ok`) or a terminal
response (`Except.error`), as `Result<Request<Body>, Response<Body>>` does. -/
structure App (S : Type) where
  state : S
  router : Router (HandlerFn S)
  pre : Request → Except Response Request
  post : Response → Response

/-- `App::new`: empty router (`Router::new(vec![])`), identity hooks. -/
def App.new {S : Type} (state : S) : App S :=
  { state := state
    router := Router.empty
    pre := fun req => .ok req
    post := fun resp => resp }

/-- `App::routes`: `self.router = Router::new(routes)`, whose failure aborts
startup (modelled as `Except.error`). -/
def App.routes {S : Type} (app : App S) (routes : List (String × Route (HandlerFn S))) :
    Except String (App S) :=
  (Router.new routes).map (fun r => { app with router := r })

/-- `App::pre`: install a pre hook. -/
def App.withPre {S : Type} (app : App S) (hook : Request → Except Response Request) : App S :=
  { app with pre := hook }

/-- `App::post`: install a post hook. -/
def App.withPost {S : Type} (app : App S) (hook : Response → Response) : App S :=
  { app with post := hook }

/-- `App::router_fn`: route lookup, parameter collection, then handler
invocation on the context built from (addr, state, head) and the body. (In the
source the two components of `Router::at`'s pair are bound under swapped
names; the embedding binds the parameter map and the handler as used.) -/
def App.routerFn {S : Type} (state : S) (addr : SocketAddr) (req : Request)
    (router : Router (HandlerFn S)) : HttpResult :=
  match Router.«at» router req.path req.method with
  | .error e => .error e
  | .ok (params, handler) =>
    let pb := req.intoParts
    handler (⟨addr, state, pb.1⟩, pb.2) params

/-- `App::serve`: pre hook, then routing with handler errors mapped through
`HttpError::response`, then post hook. -/
def App.serve {S : Type} (app : App S) (addr : SocketAddr) (req : Request) : Response :=
  -- Pre hook
  let pre := app.pre req
  -- Router
  let resp :=
    match pre with
    | .ok req =>
      match App.routerFn app.state addr req app.router with
      | .ok resp => resp
      | .error e => e.response
    | .error resp => resp
  -- Post hook
  app.post resp

/-- The routing/handler/error-mapping stage of `serve` (everything between the
two hooks): the response handed to the post hook. -/
def App.dispatch {S : Type} (app : App S) (addr : SocketAddr) (req : Request) : Response :=
  match app.pre req with
  | .ok req =>
    match App.routerFn app.state addr req app.router with
    | .ok resp => resp
    | .error e => e.response
  | .error resp => resp

/-- `App::serve` with the fallibility of `HttpError::response` kept explicit:
every conversion goes through the fallible response builder instead of the
total unwrapped form. -/
def App.serveChecked {S : Type} (app : App S) (addr : SocketAddr) (req : Request) :
    Option Response :=
  let stage :=
    match app.pre req with
    | .ok req =>
      match App.routerFn app.state addr req app.router with
      | .ok resp => some resp
      | .error e => e.responseChecked
    | .error resp => some resp
  stage.map app.post

/-- One step of the dispatch sequence, for tracing the order in which `serve`
runs its stages. -/
inductive Event where
  | preHook
  | routerLookup
  | handlerRun
  | postHook
deriving DecidableEq

/-- `App::serve` instrumented with the sequence of dispatch steps it performs,
in execution order: the pre hook, then (unless the pre hook short-circuits
with a terminal response) the router lookup, then (on a successful lookup) the
handler, and finally the post hook on whatever response resulted. -/
def App.serveTrace {S : Type} (app : App S) (addr : SocketAddr) (req : Request) :
    Response × List Event :=
  let stage :=
    match app.pre req with
    | .ok req =>
      match Router.«at» app.router req.path req.method with
      | .ok (params, handler) =>
        let pb := req.intoParts
        let resp :=
          match handler (⟨addr, app.state, pb.1⟩, pb.2) params with
          | .ok resp => resp
          | .error e => e.response
        (resp, [Event.preHook, Event.routerLookup, Event.handlerRun])
      | .error e => (e.response, [Event.preHook, Event.routerLookup])
    | .error resp => (resp, [Event.preHook])
  (app.post stage.1, stage.2 ++ [Event.postHook])

instance {ε α : Type} [DecidableEq ε] [DecidableEq α] : DecidableEq (Except ε α) := fun x y =>
  match x, y with
  | .ok a, .ok b => if h : a = b then .isTrue (by rw [h]) else .isFalse (by simp [h])
  | .error a, .error b => if h : a = b then .isTrue (by rw [h]) else .isFalse (by simp [h])
  | .ok _, .error _ => .isFalse (by simp)
  | .error _, .ok _ => .isFalse (by simp)

/-! Fixtures used by the witness theorems. -/

/-- A 200 response used by the example handlers. -/
def okResp : Response := ⟨⟨200, by omega⟩, "hi"⟩

/-- An example handler returning `okResp`. -/
def hOk : HandlerFn Unit := fun _ _ => .ok okResp

/-- The method table of the precedence example's static pattern. -/
def exRouteB : Route Nat := Route.new.add "GET" 1

/-- The method table of the precedence example's capture pattern. -/
def exRouteX : Route Nat := Route.new.add "GET" 2

/-- The compiled router of the precedence example: `/a/b` next to `/a/:x`. -/
def exRouter : Router Nat := ⟨[(parsePattern "/a/b", exRouteB), (parsePattern "/a/:x", exRouteX)]⟩

/-- An application with one `GET /a` route and the default hooks. -/
def exApp : App Unit :=
  { state := ()
    router := ⟨[(parsePattern "/a", Route.new.add "GET" hOk)]⟩
    pre := fun r => .ok r
    post := fun r => r }

/-- A 403 response used as a pre-hook rejection. -/
def rejectResp : Response := ⟨⟨403, by omega⟩, "no"⟩

/-- An application whose pre hook rejects every request with `rejectResp`. -/
def exAppReject : App Unit :=
  { exApp with pre := fun _ => .error rejectResp }

/-- A fixed connection address. -/
def exAddr : SocketAddr := ⟨"1.2.3.4", 80⟩

/-- A `GET /a` request with no headers and an empty body. -/
def exReq : Request := ⟨"GET", "/a", [], ""⟩

/-! Order lemmas for `lexLt`. -/

theorem lexLt_irrefl {α : Type} [LinearOrder α] (l : List α) : lexLt l l = false := by
  induction l with
  | nil => rfl
  | cons a as ih => simp [lexLt, ih]

theorem lexLt_trans {α : Type} [LinearOrder α] (a : List α) :
    ∀ b c, lexLt a b = true → lexLt b c = true → lexLt a c = true := by
  induction a with
  | nil =>
    intro b c h1 h2
    cases b with
    | nil => exact absurd h1 (by simp [lexLt])
    | cons y ys =>
      cases c with
      | nil => exact absurd h2 (by simp [lexLt])
      | cons z zs => simp [lexLt]
  | cons x xs ih =>
    intro b c h1 h2
    cases b with
    | nil => exact absurd h1 (by simp [lexLt])
    | cons y ys =>
      cases c with
      | nil => exact absurd h2 (by simp [lexLt])
      | cons z zs =>
        simp only [lexLt] at h1 h2 ⊢
        by_cases hxy : x < y
        · by_cases hyz : y < z
          · simp [lt_trans hxy hyz]
          · by_cases hyz2 : y = z
            · subst hyz2; simp [hxy]
            · simp [hyz, hyz2] at h2
        · by_cases hxy2 : x = y
          · subst hxy2
            by_cases hxz : x < z
            · simp [hxz]
            · by_cases hxz2 : x = z
              · subst hxz2
                simp only [lt_irrefl, if_false, if_pos rfl] at h1 h2 ⊢
                exact ih _ _ h1 h2
              · simp [hxz, hxz2] at h2
          · simp [hxy, hxy2] at h1

theorem lexLt_connex {α : Type} [LinearOrder α] (a : List α) :
    ∀ b, a ≠ b → lexLt a b = false → lexLt b a = true := by
  induction a with
  | nil =>
    intro b hne h1
    cases b with
    | nil => exact absurd rfl hne
    | cons y ys => simp [lexLt] at h1
  | cons x xs ih =>
    intro b hne h1
    cases b with
    | nil => simp [lexLt]
    | cons y ys =>
      simp only [lexLt] at h1 ⊢
      by_cases hxy : x < y
      · simp [hxy] at h1
      · by_cases heq : x = y
        · subst heq
          simp only [lt_irrefl, if_false, if_pos rfl] at h1 ⊢
          apply ih
          · intro hc
            exact hne (by rw [hc])
          · exact h1
        · have hyx : y < x := lt_of_le_of_ne (le_of_not_lt hxy) (Ne.symm heq)
          simp [hyx]

theorem strData_inj {a b : String} (h : a.data = b.data) : a = b := by
  cases a
  cases b
  exact congrArg String.mk (by simpa using h)

theorem methodLt_irrefl (a : String) : methodLt a a = false :=
  lexLt_irrefl _

theorem methodLt_trans {a b c : String} (h1 : methodLt a b = true)
    (h2 : methodLt b c = true) : methodLt a c = true :=
  lexLt_trans _ _ _ h1 h2

theorem methodLt_connex {a b : String} (hne : a ≠ b) (h : methodLt a b = false) :
    methodLt b a = true := by
  apply lexLt_connex
  · intro hd
    exact hne (strData_inj hd)
  · exact h

/-! `BTreeMap` insertion lemmas. -/

theorem btreeInsert_mem {α : Type} (k : String) (v : α) (l : List (String × α))
    (e : String × α) (he : e ∈ btreeInsert k v l) : e = (k, v) ∨ e ∈ l := by
  induction l with
  | nil => simpa [btreeInsert] using he
  | cons hd tl ih =>
    obtain ⟨k', v'⟩ := hd
    simp only [btreeInsert] at he
    by_cases h1 : k = k'
    · subst h1
      simp only [if_pos rfl] at he
      rcases List.mem_cons.mp he with rfl | hm
      · exact Or.inl rfl
      · exact Or.inr (List.mem_cons_of_mem _ hm)
    · rw [if_neg h1] at he
      by_cases h2 : methodLt k k' = true
      · rw [if_pos h2] at he
        rcases List.mem_cons.mp he with rfl | hm
        · exact Or.inl rfl
        · exact Or.inr hm
      · rw [if_neg h2] at he
        rcases List.mem_cons.mp he with rfl | hm
        · exact Or.inr (List.mem_cons_self _ _)
        · rcases ih hm with h | h
          · exact Or.inl h
          · exact Or.inr (List.mem_cons_of_mem _ h)

theorem btreeInsert_find_self {α : Type} (k : String) (v : α) (l : List (String × α)) :
    (btreeInsert k v l).find? (fun e => e.1 == k) = some (k, v) := by
  induction l with
  | nil => simp [btreeInsert, List.find?]
  | cons hd tl ih =>
    obtain ⟨k', v'⟩ := hd
    simp only [btreeInsert]
    by_cases h1 : k = k'
    · subst h1
      simp [List.find?]
    · rw [if_neg h1]
      by_cases h2 : methodLt k k' = true
      · rw [if_pos h2]
        simp [List.find?]
      · rw [if_neg h2]
        have hne : (k' == k) = false := by
          simp [Ne.symm h1]
        simp [List.find?, hne, ih]

theorem btreeInsert_find_other {α : Type} (k m : String) (hne : m ≠ k) (v : α)
    (l : List (String × α)) :
    (btreeInsert k v l).find? (fun e => e.1 == m) = l.find? (fun e => e.1 == m) := by
  have hkm : (k == m) = false := by simp [Ne.symm hne]
  induction l with
  | nil => simp [btreeInsert, List.find?, hkm]
  | cons hd tl ih =>
    obtain ⟨k', v'⟩ := hd
    simp only [btreeInsert]
    by_cases h1 : k = k'
    · subst h1
      simp [List.find?, hkm]
    · rw [if_neg h1]
      by_cases h2 : methodLt k k' = true
      · rw [if_pos h2]
        simp [List.find?, hkm]
      · rw [if_neg h2]
        by_cases h3 : (k' == m) = true
        · simp [List.find?, h3]
        · simp only [Bool.not_eq_true] at h3
          simp [List.find?, h3, ih]

theorem btreeInsert_pairwise {α : Type} (k : String) (v : α) (l : List (String × α))
    (hp : List.Pairwise (fun a b => methodLt a.1 b.1 = true) l) :
    List.Pairwise (fun a b => methodLt a.1 b.1 = true) (btreeInsert k v l) := by
  induction l with
  | nil => simp [btreeInsert]
  | cons hd tl ih =>
    obtain ⟨k', v'⟩ := hd
    rw [List.pairwise_cons] at hp
    obtain ⟨hhd, htl⟩ := hp
    simp only [btreeInsert]
    by_cases h1 : k = k'
    · subst h1
      rw [if_pos rfl, List.pairwise_cons]
      exact ⟨hhd, htl⟩
    · rw [if_neg h1]
      by_cases h2 : methodLt k k' = true
      · rw [if_pos h2]
        rw [List.pairwise_cons]
        constructor
        · intro e he
          rcases List.mem_cons.mp he with rfl | hm
          · exact h2
          · exact methodLt_trans h2 (hhd e hm)
        · rw [List.pairwise_cons]
          exact ⟨hhd, htl⟩
      · rw [if_neg h2]
        rw [List.pairwise_cons]
        constructor
        · intro e he
          rcases btreeInsert_mem k v tl e he with rfl | hm
          · exact methodLt_connex h1 (Bool.not_eq_true _ ▸ h2)
          · exact hhd e hm
        · exact ih htl

theorem btreeInsert_countP {α : Type} (k : String) (v : α) (l : List (String × α))
    (hp : List.Pairwise (fun a b => methodLt a.1 b.1 = true) l) :
    (btreeInsert k v l).countP (fun e => e.1 == k) = 1 := by
  induction l with
  | nil => simp [btreeInsert, List.countP_cons]
  | cons hd tl ih =>
    obtain ⟨k', v'⟩ := hd
    rw [List.pairwise_cons] at hp
    obtain ⟨hhd, htl⟩ := hp
    simp only [btreeInsert]
    by_cases h1 : k = k'
    · subst h1
      have hz : tl.countP (fun e => e.1 == k) = 0 := by
        rw [List.countP_eq_zero]
        intro e he hk
        have hlt := hhd e he
        have hek : e.1 = k := by simpa using hk
        rw [hek] at hlt
        simp [methodLt_irrefl] at hlt
      simp [List.countP_cons, hz]
    · rw [if_neg h1]
      by_cases h2 : methodLt k k' = true
      · rw [if_pos h2]
        have hz : ((k', v') :: tl).countP (fun e => e.1 == k) = 0 := by
          rw [List.countP_eq_zero]
          intro e he hk
          have hek : e.1 = k := by simpa using hk
          rcases List.mem_cons.mp he with rfl | hm
          · exact h1 hek.symm
          · have hlt := methodLt_trans h2 (hhd e hm)
            rw [hek] at hlt
            simp [methodLt_irrefl] at hlt
        simp [List.countP_cons, hz]
      · rw [if_neg h2]
        have hk' : (k' == k) = false := by simp [Ne.symm h1]
        simp [List.countP_cons, hk', ih htl]

/-- C4 counterexample: method keys are not compared case-insensitively and are
not canonicalized to uppercase — a handler registered under "GET" is not found
when looked up with the case variant "get" (a valid extension method of
`hyper::Method`, whose `as_str` is compared verbatim by `MethodOrd`). -/
theorem route_method_case_cex :
    (Route.new.add "GET" (0 : Nat)).«at» "GET" = some 0 ∧
    (Route.new.add "GET" (0 : Nat)).«at» "get" = none := by
  constructor
  · decide
  · decide

/-- C4 (amended): route-table method keys are compared by exact, case-sensitive
string equality of their `as_str()` forms (no uppercase canonicalization): a
handler registered under a method is found by `Route::at` exactly when looked
up with the identical method string, and any other method — including a
different case variant — leaves earlier registrations untouched. Unknown or
custom method strings are accepted verbatim. -/
theorem route_add_at_exact_method {α : Type} (r : Route α) (m m' : String) (h : α) :
    (r.add m h).«at» m' = if m' = m then some h else r.«at» m' := by
  by_cases he : m' = m
  · subst he
    simp [Route.«at», Route.add, btreeInsert_find_self]
  · rw [if_neg he]
    simp only [Route.«at», Route.add]
    rw [btreeInsert_find_other m m' he]

/-- C5: adding two handlers under the same method leaves exactly one entry for
that method in the table, and a lookup for that method returns the second,
later-registered handler — last registration wins, silently. -/
theorem route_add_last_wins {α : Type} (r : Route α) (m : String) (h1 h2 : α)
    (hwf : r.wf) :
    (((r.add m h1).add m h2).methods.countP (fun e => e.1 == m) = 1) ∧
    ((r.add m h1).add m h2).«at» m = some h2 := by
  constructor
  · exact btreeInsert_countP m h2 _ (btreeInsert_pairwise m h1 _ hwf)
  · simp [Route.«at», Route.add, btreeInsert_find_self]

/-- Witness for C5 at a concrete table: registering 0 then 1 under "GET" on the
empty table leaves one "GET" entry mapping to 1. -/
theorem route_add_last_wins_witness :
    (((Route.new.add "GET" (0 : Nat)).add "GET" 1).methods.countP (fun e => e.1 == "GET") = 1) ∧
    ((Route.new.add "GET" (0 : Nat)).add "GET" 1).«at» "GET" = some 1 :=
  route_add_last_wins Route.new "GET" 0 1 (by simp [Route.wf, Route.new])

/-- C6: building an `HttpError` from a (status, underlying error) pair logs the
error's description exactly once, and yields exactly that status with an empty
body, so the response built from it never contains the underlying error's
text; building from a bare status code likewise yields that status with an
empty body. -/
theorem httpError_from_pair_spec (code : StatusCode) (err : String) :
    (HttpError.fromPair code err).1.status = code ∧
    (HttpError.fromPair code err).1.body = Body.empty ∧
    (HttpError.fromPair code err).2 = [err] ∧
    (HttpError.fromPair code err).2.count err = 1 ∧
    ((HttpError.fromPair code err).1.response).body = Body.empty ∧
    (HttpError.ofStatus code).status = code ∧
    (HttpError.ofStatus code).body = Body.empty := by
  refine ⟨rfl, rfl, rfl, ?_, rfl, rfl, rfl⟩
  simp [HttpError.fromPair]

/-- C7: the client IP exposed by `Ctx::ip` is resolved with this precedence:
the fly-client-ip header if present, else the first comma-separated entry of
the x-forwarded-for header (trimmed) if present, else the raw connection
address's IP. -/
theorem ctx_ip_precedence {S : Type} (c : Ctx S) :
    (∀ v, str_header c.parts.headers "fly-client-ip" = some v → c.ip = v) ∧
    (str_header c.parts.headers "fly-client-ip" = none →
      ∀ v, str_header c.parts.headers "x-forwarded-for" = some v →
        c.ip = trimChars (String.mk (v.data.takeWhile (fun ch => ch ≠ ',')))) ∧
    (str_header c.parts.headers "fly-client-ip" = none →
      str_header c.parts.headers "x-forwarded-for" = none → c.ip = c.addr.ip) := by
  refine ⟨?_, ?_, ?_⟩
  · intro v hv
    simp [Ctx.ip, client_ip, hv, Option.orElse]
  · intro hn v hv
    simp [Ctx.ip, client_ip, hn, hv, str_header_first, Option.orElse]
  · intro hn1 hn2
    simp [Ctx.ip, client_ip, hn1, hn2, str_header_first, Option.orElse]

/-- Witness for C7 at concrete header maps: each of the three precedence
branches, evaluated. -/
theorem ctx_ip_precedence_witness :
    Ctx.ip (S := Unit) ⟨exAddr, (), ⟨"GET", "/", [("fly-client-ip", "9.9.9.9")]⟩⟩ = "9.9.9.9" ∧
    Ctx.ip (S := Unit) ⟨exAddr, (), ⟨"GET", "/", [("x-forwarded-for", " 7.7.7.7 , 8.8.8.8")]⟩⟩ =
      "7.7.7.7" ∧
    Ctx.ip (S := Unit) ⟨exAddr, (), ⟨"GET", "/", []⟩⟩ = "1.2.3.4" := by
  refine ⟨?_, ?_, ?_⟩
  · exact (ctx_ip_precedence _).1 "9.9.9.9" (by decide)
  · have h := (ctx_ip_precedence
      (⟨exAddr, (), ⟨"GET", "/", [("x-forwarded-for", " 7.7.7.7 , 8.8.8.8")]⟩⟩ : Ctx Unit)).2.1
      (by decide) " 7.7.7.7 , 8.8.8.8" (by decide)
    rw [h]
    decide
  · have h := (ctx_ip_precedence (⟨exAddr, (), ⟨"GET", "/", []⟩⟩ : Ctx Unit)).2.2
      (by decide) (by decide)
    rw [h]
    rfl

/-- C3: converting any `HttpError` into a response never fails — the fallible
builder that `HttpError::response` unwraps always returns a response carrying
the error's status and body — and therefore `serve`, with every conversion
kept explicitly fallible, still always produces a concrete response: it equals
the total `serve` on every execution path. -/
theorem serve_never_reports_error {S : Type} (app : App S) (addr : SocketAddr)
    (req : Request) :
    (∀ e : HttpError, e.responseChecked = some e.response) ∧
    App.serveChecked app addr req = some (App.serve app addr req) := by
  have hresp : ∀ e : HttpError, e.responseChecked = some e.response := by
    intro e
    obtain ⟨⟨n, hn⟩, b⟩ := e
    unfold HttpError.responseChecked responseBuild
    rw [dif_pos hn]
    rfl
  refine ⟨hresp, ?_⟩
  unfold App.serveChecked App.serve
  cases hpre : app.pre req with
  | error resp => simp [hpre]
  | ok req' =>
    cases hr : App.routerFn app.state addr req' app.router with
    | ok resp => simp [hpre, hr]
    | error e => simp [hpre, hr, hresp e]

/-! Selection lemmas for the pattern matcher. -/

theorem matchingOf_eq_nil_iff {α : Type} (pats : List (List Seg × Route α))
    (path : List String) :
    matchingOf pats path = [] ↔ ∀ e ∈ pats, matchSegs e.1 path = none := by
  simp [matchingOf, List.filterMap_eq_nil_iff, Option.map_eq_none']

theorem mem_matchingOf {α : Type} {pats : List (List Seg × Route α)}
    {path : List String} {c : Matched α} :
    c ∈ matchingOf pats path ↔ c.1 ∈ pats ∧ matchSegs c.1.1 path = some c.2 := by
  constructor
  · intro hc
    obtain ⟨a, ha, hf⟩ := List.mem_filterMap.mp hc
    obtain ⟨ps, hps, heq⟩ := Option.map_eq_some'.mp hf
    subst heq
    exact ⟨ha, hps⟩
  · intro h
    apply List.mem_filterMap.mpr
    exact ⟨c.1, h.1, by rw [h.2]; rfl⟩

theorem pickMin_mem {α : Type} (cs : List (Matched α)) (best : Matched α) :
    pickMin best cs = best ∨ pickMin best cs ∈ cs := by
  induction cs generalizing best with
  | nil => exact Or.inl rfl
  | cons c cs ih =>
    simp only [pickMin]
    by_cases h : keyLt (patKey c.1.1) (patKey best.1.1) = true
    · rw [if_pos h]
      rcases ih c with h1 | h1
      · exact Or.inr (by rw [h1]; exact List.mem_cons_self _ _)
      · exact Or.inr (List.mem_cons_of_mem _ h1)
    · rw [if_neg h]
      rcases ih best with h1 | h1
      · exact Or.inl h1
      · exact Or.inr (List.mem_cons_of_mem _ h1)

theorem pickMin_min {α : Type} (cs : List (Matched α)) :
    ∀ (best q : Matched α), (q = best ∨ q ∈ cs) →
      keyLt (patKey q.1.1) (patKey (pickMin best cs).1.1) = false := by
  induction cs with
  | nil =>
    intro best q hq
    rcases hq with rfl | h
    · simp only [pickMin]
      exact lexLt_irrefl _
    · cases h
  | cons c cs ih =>
    intro best q hq
    simp only [pickMin]
    by_cases hc : keyLt (patKey c.1.1) (patKey best.1.1) = true
    · rw [if_pos hc]
      rcases hq with rfl | h
      · have hcmin := ih c c (Or.inl rfl)
        by_contra hcon
        rw [Bool.not_eq_false] at hcon
        have h3 := lexLt_trans _ _ _ hc hcon
        have hcmin2 : lexLt (patKey c.1.1) (patKey (pickMin c cs).1.1) = false := hcmin
        rw [hcmin2] at h3
        exact absurd h3 (by simp)
      · rcases List.mem_cons.mp h with rfl | h1
        · exact ih _ _ (Or.inl rfl)
        · exact ih _ _ (Or.inr h1)
    · rw [if_neg hc]
      rcases hq with rfl | h
      · exact ih _ _ (Or.inl rfl)
      · rcases List.mem_cons.mp h with rfl | h1
        · by_contra hcon
          rw [Bool.not_eq_false] at hcon
          have hbr := ih best best (Or.inl rfl)
          have hc2 : keyLt (patKey q.1.1) (patKey best.1.1) = false := by
            simpa using hc
          have hbr2 : lexLt (patKey best.1.1) (patKey (pickMin best cs).1.1) = false := hbr
          by_cases he : patKey q.1.1 = patKey best.1.1
          · rw [he] at hcon
            have hcon2 : lexLt (patKey best.1.1) (patKey (pickMin best cs).1.1) = true := hcon
            rw [hbr2] at hcon2
            exact absurd hcon2 (by simp)
          · have hbc := lexLt_connex _ _ he hc2
            have h3 := lexLt_trans _ _ _ hbc hcon
            rw [hbr2] at h3
            exact absurd h3 (by simp)
        · exact ih _ _ (Or.inr h1)

theorem select_eq_none_iff {α : Type} (r : Router α) (path : List String) :
    Router.select r path = none ↔ ∀ e ∈ r.pats, matchSegs e.1 path = none := by
  unfold Router.select
  cases hm : matchingOf r.pats path with
  | nil => exact iff_of_true rfl ((matchingOf_eq_nil_iff _ _).mp hm)
  | cons c cs =>
    constructor
    · intro h
      exact absurd h (by simp)
    · intro hall
      have hc : c ∈ matchingOf r.pats path := by
        rw [hm]
        exact List.mem_cons_self _ _
      obtain ⟨h1, h2⟩ := mem_matchingOf.mp hc
      rw [hall c.1 h1] at h2
      exact absurd h2 (by simp)

theorem select_eq_some_mem {α : Type} {r : Router α} {path : List String}
    {c : Matched α} (h : Router.select r path = some c) :
    c.1 ∈ r.pats ∧ matchSegs c.1.1 path = some c.2 := by
  unfold Router.select at h
  cases hm : matchingOf r.pats path with
  | nil =>
    rw [hm] at h
    exact absurd h (by simp)
  | cons x xs =>
    rw [hm] at h
    have hc : pickMin x xs = c := by simpa using h
    have hmem : c ∈ matchingOf r.pats path := by
      rw [hm]
      rcases pickMin_mem xs x with h1 | h1
      · rw [← hc, h1]
        exact List.mem_cons_self _ _
      · rw [← hc]
        exact List.mem_cons_of_mem _ h1
    exact mem_matchingOf.mp hmem

theorem select_min {α : Type} {r : Router α} {path : List String} {c : Matched α}
    (h : Router.select r path = some c)
    (q : Matched α) (hq : q ∈ matchingOf r.pats path) :
    keyLt (patKey q.1.1) (patKey c.1.1) = false := by
  unfold Router.select at h
  cases hm : matchingOf r.pats path with
  | nil =>
    rw [hm] at hq
    cases hq
  | cons x xs =>
    rw [hm] at h hq
    have hc : pickMin x xs = c := by simpa using h
    rw [← hc]
    rcases List.mem_cons.mp hq with rfl | h1
    · exact pickMin_min xs _ _ (Or.inl rfl)
    · exact pickMin_min xs _ _ (Or.inr h1)

/-! Construction lemmas for `Router::new`. -/

theorem matchitInsert_ok {α : Type} {acc : List (List Seg × Route α)} {pat : String}
    {route : Route α} {res : List (List Seg × Route α)}
    (h : matchitInsert acc pat route = Except.ok res) :
    res = acc ++ [(parsePattern pat, route)] ∧
    wildOk (parsePattern pat) = true ∧
    ∀ q ∈ acc, ambiguous q.1 (parsePattern pat) = false := by
  simp only [matchitInsert] at h
  by_cases h1 : wildOk (parsePattern pat) = false
  · rw [if_pos h1] at h
    exact absurd h (by simp)
  · rw [if_neg h1] at h
    by_cases h2 : acc.any (fun q => ambiguous q.1 (parsePattern pat)) = true
    · rw [if_pos h2] at h
      exact absurd h (by simp)
    · rw [if_neg h2] at h
      have hres : res = acc ++ [(parsePattern pat, route)] := by
        have := h
        simp only [Except.ok.injEq] at this
        exact this.symm
      refine ⟨hres, by simpa using h1, ?_⟩
      intro q hq
      simp only [List.any_eq_true, not_exists, not_and, Bool.not_eq_true] at h2
      exact h2 q hq

theorem routerNewAux_ok {α : Type} (routes : List (String × Route α)) :
    ∀ acc res, routerNewAux acc routes = Except.ok res →
      res = acc ++ routes.map (fun pr => (parsePattern pr.1, pr.2)) ∧
      (∀ pr ∈ routes, wildOk (parsePattern pr.1) = true) ∧
      (List.Pairwise (fun a b => ambiguous a.1 b.1 = false) acc →
        List.Pairwise (fun a b => ambiguous a.1 b.1 = false) res) := by
  induction routes with
  | nil =>
    intro acc res h
    simp only [routerNewAux, Except.ok.injEq] at h
    subst h
    exact ⟨by simp, by simp, fun hp => hp⟩
  | cons pr rest ih =>
    intro acc res h
    simp only [routerNewAux] at h
    cases hins : matchitInsert acc pr.1 pr.2 with
    | error msg =>
      rw [hins] at h
      exact absurd h (by simp)
    | ok acc2 =>
      rw [hins] at h
      obtain ⟨hacc2, hw, hcross⟩ := matchitInsert_ok hins
      obtain ⟨hres, hwrest, hpres⟩ := ih acc2 res h
      refine ⟨?_, ?_, ?_⟩
      · rw [hres, hacc2]
        simp
      · intro q hq
        rcases List.mem_cons.mp hq with rfl | hm
        · exact hw
        · exact hwrest q hm
      · intro hp
        apply hpres
        rw [hacc2]
        rw [List.pairwise_append]
        refine ⟨hp, by simp, ?_⟩
        intro a ha b hb
        rw [List.mem_singleton] at hb
        subst hb
        exact hcross a ha

theorem routerNew_ok {α : Type} {routes : List (String × Route α)} {r : Router α}
    (h : Router.new routes = Except.ok r) :
    r.pats = routes.map (fun pr => (parsePattern pr.1, pr.2)) ∧
    (∀ pr ∈ routes, wildOk (parsePattern pr.1) = true) ∧
    List.Pairwise (fun a b => ambiguous a.1 b.1 = false) r.pats := by
  unfold Router.new at h
  cases haux : routerNewAux ([] : List (List Seg × Route α)) routes with
  | error msg =>
    rw [haux] at h
    exact absurd h (by simp [Except.map])
  | ok res =>
    rw [haux] at h
    have hr : r = Router.mk res := by
      simp only [Except.map, Except.ok.injEq] at h
      exact h.symm
    obtain ⟨hres, hw, hpres⟩ := routerNewAux_ok routes [] res haux
    subst hr
    exact ⟨by simpa using hres, hw, hpres (by simp)⟩

/-! Shape and length lemmas for pattern matching. -/

theorem matchSegs_some_length {p : List Seg} :
    ∀ {path : List String} {ps : List (String × String)},
      matchSegs p path = some ps → p.length ≤ path.length := by
  induction p with
  | nil =>
    intro path ps h
    cases path with
    | nil => simp
    | cons x xs => exact absurd h (by simp [matchSegs])
  | cons s p' ih =>
    intro path ps h
    cases s with
    | wild n =>
      simp only [matchSegs] at h
      by_cases hcond : p' = [] ∧ path ≠ []
      · obtain ⟨hp', hpath⟩ := hcond
        subst hp'
        cases path with
        | nil => exact absurd rfl hpath
        | cons x xs => simp
      · rw [if_neg hcond] at h
        exact absurd h (by simp)
    | lit str =>
      cases path with
      | nil => exact absurd h (by simp [matchSegs])
      | cons x xs =>
        simp only [matchSegs] at h
        by_cases hx : str = x
        · rw [if_pos hx] at h
          have := ih h
          simpa using Nat.succ_le_succ this
        · rw [if_neg hx] at h
          exact absurd h (by simp)
    | param n =>
      cases path with
      | nil => exact absurd h (by simp [matchSegs])
      | cons x xs =>
        simp only [matchSegs] at h
        by_cases hx : x ≠ ""
        · rw [if_pos hx] at h
          obtain ⟨l, hl, _⟩ := Option.map_eq_some'.mp h
          have := ih hl
          simpa using Nat.succ_le_succ this
        · rw [if_neg hx] at h
          exact absurd h (by simp)

theorem rank_zero_lit {s : Seg} (h : Seg.rank s = 0) : ∃ str, s = Seg.lit str := by
  cases s with
  | lit str => exact ⟨str, rfl⟩
  | param n => exact absurd h (by simp [Seg.rank])
  | wild n => exact absurd h (by simp [Seg.rank])

theorem rank_zero_not_wild {s : Seg} (h : Seg.rank s = 0) : s.isWild = false := by
  obtain ⟨str, rfl⟩ := rank_zero_lit h
  rfl

theorem matchSegs_noWild_length {p : List Seg} :
    ∀ {path : List String} {ps : List (String × String)},
      (∀ s ∈ p, s.isWild = false) → matchSegs p path = some ps →
      p.length = path.length := by
  induction p with
  | nil =>
    intro path ps _ h
    cases path with
    | nil => rfl
    | cons x xs => exact absurd h (by simp [matchSegs])
  | cons s p' ih =>
    intro path ps hnw h
    cases s with
    | wild n => exact absurd (hnw _ (List.mem_cons_self _ _)) (by simp [Seg.isWild])
    | lit str =>
      cases path with
      | nil => exact absurd h (by simp [matchSegs])
      | cons x xs =>
        simp only [matchSegs] at h
        by_cases hx : str = x
        · rw [if_pos hx] at h
          have := ih (fun t ht => hnw t (List.mem_cons_of_mem _ ht)) h
          simpa using this
        · rw [if_neg hx] at h
          exact absurd h (by simp)
    | param n =>
      cases path with
      | nil => exact absurd h (by simp [matchSegs])
      | cons x xs =>
        simp only [matchSegs] at h
        by_cases hx : x ≠ ""
        · rw [if_pos hx] at h
          obtain ⟨l, hl, _⟩ := Option.map_eq_some'.mp h
          have := ih (fun t ht => hnw t (List.mem_cons_of_mem _ ht)) hl
          simpa using this
        · rw [if_neg hx] at h
          exact absurd h (by simp)

theorem matchSegs_allLit {p : List Seg} :
    ∀ {path : List String} {ps : List (String × String)},
      (∀ s ∈ p, Seg.rank s = 0) → matchSegs p path = some ps →
      p = path.map Seg.lit := by
  induction p with
  | nil =>
    intro path ps _ h
    cases path with
    | nil => rfl
    | cons x xs => exact absurd h (by simp [matchSegs])
  | cons s p' ih =>
    intro path ps hall h
    obtain ⟨str, rfl⟩ := rank_zero_lit (hall s (List.mem_cons_self _ _))
    cases path with
    | nil => exact absurd h (by simp [matchSegs])
    | cons x xs =>
      simp only [matchSegs] at h
      by_cases hx : str = x
      · rw [if_pos hx] at h
        have := ih (fun t ht => hall t (List.mem_cons_of_mem _ ht)) h
        rw [List.map_cons, ← hx, this]
      · rw [if_neg hx] at h
        exact absurd h (by simp)

theorem patKey_length (p : List Seg) : (patKey p).length = p.length := by
  simp [patKey]

theorem patKey_all_zero {p : List Seg} (h : ∀ s ∈ p, Seg.rank s = 0) :
    patKey p = List.replicate p.length 0 := by
  induction p with
  | nil => rfl
  | cons s ps ih =>
    simp only [patKey, List.map_cons, List.length_cons, List.replicate_succ]
    rw [h s (List.mem_cons_self _ _)]
    have := ih (fun t ht => h t (List.mem_cons_of_mem _ ht))
    simp only [patKey] at this
    rw [this]

theorem lexLt_replicate_zero (kq : List Nat) :
    ∀ n : Nat, kq.length ≤ n → (∃ x ∈ kq, x ≠ 0) →
      lexLt (List.replicate n 0) kq = true := by
  induction kq with
  | nil =>
    intro n _ hnz
    rcases hnz with ⟨x, hx, _⟩
    cases hx
  | cons b bs ih =>
    intro n hlen hnz
    cases n with
    | zero => simp at hlen
    | succ m =>
      rw [List.replicate_succ]
      simp only [lexLt]
      by_cases hb : 0 < b
      · rw [if_pos hb]
      · have hb0 : b = 0 := by omega
        subst hb0
        rw [if_neg hb, if_pos rfl]
        have hlen2 : bs.length ≤ m := by
          simp only [List.length_cons] at hlen
          omega
        rcases hnz with ⟨x, hx, hxne⟩
        rcases List.mem_cons.mp hx with rfl | hm
        · exact absurd rfl hxne
        · exact ih m hlen2 ⟨x, hm, hxne⟩

theorem ambiguous_symm (p q : List Seg) : ambiguous p q = ambiguous q p := by
  simp [ambiguous, eq_comm]

theorem pairwise_ambiguous_eq {α : Type} {l : List (List Seg × Route α)}
    (hp : List.Pairwise (fun a b => ambiguous a.1 b.1 = false) l)
    {a b : List Seg × Route α} (ha : a ∈ l) (hb : b ∈ l)
    (hab : ambiguous a.1 b.1 = true) : a = b := by
  induction l with
  | nil => cases ha
  | cons x xs ih =>
    rw [List.pairwise_cons] at hp
    obtain ⟨hx, hxs⟩ := hp
    rcases List.mem_cons.mp ha with rfl | ha2
    · rcases List.mem_cons.mp hb with rfl | hb2
      · rfl
      · have := hx b hb2
        rw [this] at hab
        exact absurd hab (by simp)
    · rcases List.mem_cons.mp hb with rfl | hb2
      · have := hx a ha2
        rw [ambiguous_symm] at this
        rw [this] at hab
        exact absurd hab (by simp)
      · exact ih hxs ha2 hb2

/-! Characterization of `Router::at` by cases. -/

theorem routerAt_of_select_none {α : Type} {r : Router α} {path method : String}
    (h : Router.select r (segsOf path) = none) :
    Router.«at» r path method = Except.error (HttpError.new StatusCode.notFound Body.empty) := by
  unfold Router.«at»
  rw [h]

theorem routerAt_of_route_none {α : Type} {r : Router α} {path method : String}
    {c : Matched α} (h : Router.select r (segsOf path) = some c)
    (h2 : Route.«at» c.1.2 method = none) :
    Router.«at» r path method =
      Except.error (HttpError.new StatusCode.methodNotAllowed Body.empty) := by
  unfold Router.«at»
  rw [h]
  show (match Route.«at» c.1.2 method with
    | none => Except.error (HttpError.new StatusCode.methodNotAllowed Body.empty)
    | some hnd => Except.ok (c.2, hnd)) = _
  rw [h2]

theorem routerAt_of_route_some {α : Type} {r : Router α} {path method : String}
    {c : Matched α} {hnd : α} (h : Router.select r (segsOf path) = some c)
    (h2 : Route.«at» c.1.2 method = some hnd) :
    Router.«at» r path method = Except.ok (c.2, hnd) := by
  unfold Router.«at»
  rw [h]
  show (match Route.«at» c.1.2 method with
    | none => Except.error (HttpError.new StatusCode.methodNotAllowed Body.empty)
    | some hnd2 => Except.ok (c.2, hnd2)) = _
  rw [h2]

/-- C8: router construction fails at construction time, never at request time:
a route list containing a pattern whose trailing-wildcard capture is not in
final position, or containing two patterns that could ambiguously match the
same concrete path (equal up to their capture names), makes `Router::new` fail
— the `unwrap()` aborts startup — and a lookup on a successfully built router
only ever fails with the 404 or 405 routing failure, never with a
construction error. -/
theorem router_construction_failures {α : Type} (routes : List (String × Route α)) :
    (((∃ pr ∈ routes, wildOk (parsePattern pr.1) = false) ∨
      ¬ List.Pairwise
        (fun a b => ambiguous (parsePattern a.1) (parsePattern b.1) = false) routes) →
      ∃ msg, Router.new routes = Except.error msg) ∧
    (∀ (r : Router α) (path method : String) (e : HttpError),
      Router.new routes = Except.ok r →
      Router.«at» r path method = Except.error e →
      e.status = StatusCode.notFound ∨ e.status = StatusCode.methodNotAllowed) := by
  constructor
  · intro hbad
    cases hn : Router.new routes with
    | error msg => exact ⟨msg, rfl⟩
    | ok r =>
      obtain ⟨hpats, hw, hpw⟩ := routerNew_ok hn
      rcases hbad with ⟨pr, hpr, hwf⟩ | hpair
      · rw [hw pr hpr] at hwf
        exact absurd hwf (by simp)
      · refine absurd ?_ hpair
        rw [hpats, List.pairwise_map] at hpw
        exact hpw
  · intro r path method e _ hat
    cases hsel : Router.select r (segsOf path) with
    | none =>
      rw [routerAt_of_select_none hsel] at hat
      simp only [Except.error.injEq] at hat
      exact Or.inl (by rw [← hat]; rfl)
    | some c =>
      cases hroute : Route.«at» c.1.2 method with
      | none =>
        rw [routerAt_of_route_none hsel hroute] at hat
        simp only [Except.error.injEq] at hat
        exact Or.inr (by rw [← hat]; rfl)
      | some hnd =>
        rw [routerAt_of_route_some hsel hroute] at hat
        exact absurd hat (by simp)

/-- Witness for C8: a pattern with a non-final `*x` capture makes construction
fail, and a 404 lookup failure on a built router carries one of the two
routing statuses. -/
theorem router_construction_failures_witness :
    (∃ msg, Router.new [("/a/*x/b", exRouteB)] = Except.error msg) ∧
    ((HttpError.new StatusCode.notFound Body.empty).status = StatusCode.notFound ∨
      (HttpError.new StatusCode.notFound Body.empty).status = StatusCode.methodNotAllowed) := by
  constructor
  · exact (router_construction_failures [("/a/*x/b", exRouteB)]).1
      (Or.inl ⟨("/a/*x/b", exRouteB), by simp, by decide⟩)
  · exact (router_construction_failures [("/a/b", exRouteB), ("/a/:x", exRouteX)]).2
      exRouter "/zz" "GET" (HttpError.new StatusCode.notFound Body.empty) (by decide)
      (by decide)

/-- C1: `Router::at` fails with the 404 NotFound error exactly when no
registered pattern matches the path, and with the 405 MethodNotAllowed error
exactly when a pattern matches the path (the selected one) but its route table
has no entry for the method; the two failures are distinct values; and `serve`
(through the identity hooks of `App::new`) maps them to the empty-body 404 and
405 responses respectively. -/
theorem router_at_failure_taxonomy :
    (∀ (α : Type) (r : Router α) (path method : String),
      (Router.«at» r path method =
          Except.error (HttpError.new StatusCode.notFound Body.empty) ↔
        ∀ q ∈ r.pats, matchSegs q.1 (segsOf path) = none) ∧
      (Router.«at» r path method =
          Except.error (HttpError.new StatusCode.methodNotAllowed Body.empty) ↔
        ∃ c, Router.select r (segsOf path) = some c ∧ Route.«at» c.1.2 method = none) ∧
      HttpError.new StatusCode.notFound Body.empty ≠
        HttpError.new StatusCode.methodNotAllowed Body.empty) ∧
    (∀ (S : Type) (app : App S) (addr : SocketAddr) (req : Request),
      app.pre = (fun rq => Except.ok rq) → app.post = (fun resp => resp) →
      ((∀ q ∈ app.router.pats, matchSegs q.1 (segsOf req.path) = none) →
        App.serve app addr req = ⟨StatusCode.notFound, Body.empty⟩) ∧
      (∀ c, Router.select app.router (segsOf req.path) = some c →
        Route.«at» c.1.2 req.method = none →
        App.serve app addr req = ⟨StatusCode.methodNotAllowed, Body.empty⟩)) := by
  constructor
  · intro α r path method
    refine ⟨?_, ?_, by decide⟩
    · constructor
      · intro h
        rw [← select_eq_none_iff]
        cases hsel : Router.select r (segsOf path) with
        | none => rfl
        | some c =>
          cases hroute : Route.«at» c.1.2 method with
          | none =>
            rw [routerAt_of_route_none hsel hroute] at h
            simp only [Except.error.injEq] at h
            exact absurd (congrArg HttpError.status h) (by decide)
          | some hnd =>
            rw [routerAt_of_route_some hsel hroute] at h
            exact absurd h (by simp)
      · intro hall
        exact routerAt_of_select_none ((select_eq_none_iff r _).mpr hall)
    · constructor
      · intro h
        cases hsel : Router.select r (segsOf path) with
        | none =>
          rw [routerAt_of_select_none hsel] at h
          simp only [Except.error.injEq] at h
          exact absurd (congrArg HttpError.status h) (by decide)
        | some c =>
          cases hroute : Route.«at» c.1.2 method with
          | none => exact ⟨c, rfl, hroute⟩
          | some hnd =>
            rw [routerAt_of_route_some hsel hroute] at h
            exact absurd h (by simp)
      · intro hex
        obtain ⟨c, hsel, hroute⟩ := hex
        exact routerAt_of_route_none hsel hroute
  · intro S app addr req hpre hpost
    constructor
    · intro hall
      have hat := @routerAt_of_select_none (HandlerFn S) app.router req.path req.method
        ((select_eq_none_iff _ _).mpr hall)
      unfold App.serve App.routerFn
      rw [hpre, hpost]
      simp only [hat]
      rfl
    · intro c hsel hroute
      have hat := @routerAt_of_route_none (HandlerFn S) app.router req.path req.method c
        hsel hroute
      unfold App.serve App.routerFn
      rw [hpre, hpost]
      simp only [hat]
      rfl

/-- Witness for C1: on the example router, a path matching no pattern yields
the 404 failure, a matching path with the wrong verb yields the 405 failure,
and the default-hook application maps them to the 404/405 empty responses. -/
theorem router_at_failure_taxonomy_witness :
    Router.«at» exRouter "/zz" "GET" =
      Except.error (HttpError.new StatusCode.notFound Body.empty) ∧
    Router.«at» exRouter "/a/b" "POST" =
      Except.error (HttpError.new StatusCode.methodNotAllowed Body.empty) ∧
    App.serve exApp exAddr ⟨"GET", "/zz", [], ""⟩ = ⟨StatusCode.notFound, Body.empty⟩ ∧
    App.serve exApp exAddr ⟨"POST", "/a", [], ""⟩ =
      ⟨StatusCode.methodNotAllowed, Body.empty⟩ := by
  refine ⟨?_, ?_, ?_, ?_⟩
  · exact ((router_at_failure_taxonomy.1 Nat exRouter "/zz" "GET").1).mpr (by decide)
  · exact ((router_at_failure_taxonomy.1 Nat exRouter "/a/b" "POST").2.1).mpr
      ⟨((parsePattern "/a/b", exRouteB), []), by decide, by decide⟩
  · exact ((router_at_failure_taxonomy.2 Unit exApp exAddr ⟨"GET", "/zz", [], ""⟩
      rfl rfl).1) (by decide)
  · exact ((router_at_failure_taxonomy.2 Unit exApp exAddr ⟨"POST", "/a", [], ""⟩
      rfl rfl).2) ((parsePattern "/a", Route.new.add "GET" hOk), []) rfl rfl

/-- C9: pattern matching obeys longest-static-prefix precedence. On a router
whose construction succeeded: no pattern is selected exactly when none
matches; segment precedence is literal before `:name` capture before `*name`
capture (by rank); the selected pattern has the lexicographically smallest
precedence key among all matching patterns; and whenever an all-literal
(static) pattern matches the path, the selection is exactly that pattern — in
particular with both `/a/b` and `/a/:x` registered, `/a/b` selects the static
pattern. The selection function returns at most one pattern, so exactly one
pattern is selected or none. -/
theorem router_static_precedence {α : Type} (routes : List (String × Route α))
    (r : Router α) (hbuild : Router.new routes = Except.ok r) (path : String) :
    (Router.select r (segsOf path) = none ↔
      ∀ q ∈ r.pats, matchSegs q.1 (segsOf path) = none) ∧
    (Seg.rank (Seg.lit "a") < Seg.rank (Seg.param "x") ∧
      Seg.rank (Seg.param "x") < Seg.rank (Seg.wild "w")) ∧
    (∀ c, Router.select r (segsOf path) = some c →
      ∀ q ∈ matchingOf r.pats (segsOf path),
        keyLt (patKey q.1.1) (patKey c.1.1) = false) ∧
    (∀ e, e ∈ r.pats → ∀ ps, (∀ s ∈ e.1, Seg.rank s = 0) →
      matchSegs e.1 (segsOf path) = some ps →
      Router.select r (segsOf path) = some (e, ps)) := by
  obtain ⟨hpats, hwild, hpw⟩ := routerNew_ok hbuild
  refine ⟨select_eq_none_iff r _, ⟨by decide, by decide⟩,
    fun c hc q hq => select_min hc q hq, ?_⟩
  intro e he ps hstatic hmatch
  cases hsel : Router.select r (segsOf path) with
  | none =>
    rw [select_eq_none_iff] at hsel
    rw [hsel e he] at hmatch
    exact absurd hmatch (by simp)
  | some c =>
    obtain ⟨hc1, hc2⟩ := select_eq_some_mem hsel
    have hplen : e.1.length = (segsOf path).length :=
      matchSegs_noWild_length (fun s hs => rank_zero_not_wild (hstatic s hs)) hmatch
    have hpkey : patKey e.1 = List.replicate e.1.length 0 := patKey_all_zero hstatic
    by_cases hkey : patKey c.1.1 = patKey e.1
    · have hcz : ∀ s ∈ c.1.1, Seg.rank s = 0 := by
        intro s hs
        have hmem : Seg.rank s ∈ patKey c.1.1 := List.mem_map_of_mem _ hs
        rw [hkey, hpkey] at hmem
        exact List.eq_of_mem_replicate hmem
      have hce : c.1.1 = (segsOf path).map Seg.lit := matchSegs_allLit hcz hc2
      have hee : e.1 = (segsOf path).map Seg.lit := matchSegs_allLit hstatic hmatch
      have hamb : ambiguous c.1.1 e.1 = true := by
        rw [hce, hee]
        simp [ambiguous]
      have hceq : c.1 = e := pairwise_ambiguous_eq hpw hc1 he hamb
      rw [hceq, hmatch] at hc2
      have hps : ps = c.2 := Option.some.inj hc2
      exact congrArg some (Prod.ext hceq hps.symm)
    · have hnz : ∃ x ∈ patKey c.1.1, x ≠ 0 := by
        by_contra hall2
        push_neg at hall2
        apply hkey
        have hcz : ∀ s ∈ c.1.1, Seg.rank s = 0 := by
          intro s hs
          exact hall2 _ (List.mem_map_of_mem _ hs)
        have hclen : c.1.1.length = (segsOf path).length :=
          matchSegs_noWild_length (fun s hs => rank_zero_not_wild (hcz s hs)) hc2
        rw [patKey_all_zero hcz, hpkey, hclen, hplen]
      have hlt : lexLt (patKey e.1) (patKey c.1.1) = true := by
        rw [hpkey, hplen]
        apply lexLt_replicate_zero
        · rw [patKey_length]
          exact matchSegs_some_length hc2
        · exact hnz
      have hmin := select_min hsel (e, ps) (mem_matchingOf.mpr ⟨he, hmatch⟩)
      have hmin2 : lexLt (patKey e.1) (patKey c.1.1) = false := hmin
      rw [hmin2] at hlt
      exact absurd hlt (by simp)

/-- Witness for C9: with both `/a/b` (static) and `/a/:x` registered, a lookup
of `/a/b` selects the static pattern. -/
theorem router_static_precedence_witness :
    Router.select exRouter (segsOf "/a/b") = some ((parsePattern "/a/b", exRouteB), []) :=
  (router_static_precedence [("/a/b", exRouteB), ("/a/:x", exRouteX)] exRouter
    (by decide) "/a/b").2.2.2 (parsePattern "/a/b", exRouteB) (by decide) []
    (by decide) (by decide)

/-- C2: on every call to `serve`, the pre hook runs before any routing (it is
the first traced step), the post hook runs exactly once and last, on whatever
response the earlier stages produced; if the pre hook returns a terminal
response, neither the router lookup nor any handler is run and the post hook
is applied to the rejection response; and the traced run computes exactly
`serve`. -/
theorem serve_hook_ordering {S : Type} (app : App S) (addr : SocketAddr) (req : Request) :
    (App.serveTrace app addr req).1 = App.serve app addr req ∧
    (App.serveTrace app addr req).2.head? = some Event.preHook ∧
    (App.serveTrace app addr req).2.getLast? = some Event.postHook ∧
    (App.serveTrace app addr req).2.count Event.postHook = 1 ∧
    (∀ resp, app.pre req = Except.error resp →
      Event.routerLookup ∉ (App.serveTrace app addr req).2 ∧
      Event.handlerRun ∉ (App.serveTrace app addr req).2 ∧
      App.serveTrace app addr req = (app.post resp, [Event.preHook, Event.postHook])) := by
  cases hpre : app.pre req with
  | error resp =>
    have hstage : App.serveTrace app addr req =
        (app.post resp, [Event.preHook, Event.postHook]) := by
      unfold App.serveTrace
      simp only [hpre]
      rfl
    have hserve : App.serve app addr req = app.post resp := by
      unfold App.serve
      simp only [hpre]
    refine ⟨?_, ?_, ?_, ?_, ?_⟩
    · rw [hstage, hserve]
    · rw [hstage]
      rfl
    · rw [hstage]
      rfl
    · rw [hstage]
      rfl
    · intro resp2 hresp2
      simp only [Except.error.injEq] at hresp2
      subst hresp2
      exact ⟨by rw [hstage]; simp, by rw [hstage]; simp, hstage⟩
  | ok req2 =>
    cases hat : Router.«at» app.router req2.path req2.method with
    | error e =>
      have hstage : App.serveTrace app addr req =
          (app.post e.response, [Event.preHook, Event.routerLookup, Event.postHook]) := by
        unfold App.serveTrace
        simp only [hpre, hat]
        rfl
      have hserve : App.serve app addr req = app.post e.response := by
        unfold App.serve App.routerFn
        simp only [hpre, hat]
      refine ⟨?_, ?_, ?_, ?_, ?_⟩
      · rw [hstage, hserve]
      · rw [hstage]
        rfl
      · rw [hstage]
        rfl
      · rw [hstage]
        rfl
      · intro resp2 hresp2
        exact absurd hresp2 (by simp)
    | ok pr =>
      have hstage : App.serveTrace app addr req =
          (app.post
            (match pr.2 (⟨addr, app.state, req2.intoParts.1⟩, req2.intoParts.2) pr.1 with
              | Except.ok resp => resp
              | Except.error e => e.response),
           [Event.preHook, Event.routerLookup, Event.handlerRun, Event.postHook]) := by
        unfold App.serveTrace
        simp only [hpre, hat]
        rfl
      have hserve : App.serve app addr req =
          app.post
            (match pr.2 (⟨addr, app.state, req2.intoParts.1⟩, req2.intoParts.2) pr.1 with
              | Except.ok resp => resp
              | Except.error e => e.response) := by
        unfold App.serve App.routerFn
        simp only [hpre, hat]
      refine ⟨?_, ?_, ?_, ?_, ?_⟩
      · rw [hstage, hserve]
      · rw [hstage]
        rfl
      · rw [hstage]
        rfl
      · rw [hstage]
        rfl
      · intro resp2 hresp2
        exact absurd hresp2 (by simp)

/-- Witness for C2 at a concrete application whose pre hook rejects: the trace
is exactly pre hook then post hook, routing and handler never run, and the
post hook is applied to the rejection response. -/
theorem serve_hook_ordering_witness :
    Event.routerLookup ∉ (App.serveTrace exAppReject exAddr exReq).2 ∧
    Event.handlerRun ∉ (App.serveTrace exAppReject exAddr exReq).2 ∧
    App.serveTrace exAppReject exAddr exReq =
      (exAppReject.post rejectResp, [Event.preHook, Event.postHook]) ∧
    (App.serveTrace exAppReject exAddr exReq).2.count Event.postHook = 1 ∧
    (App.serveTrace exAppReject exAddr exReq).1 = App.serve exAppReject exAddr exReq := by
  have h := serve_hook_ordering exAppReject exAddr exReq
  have h5 := h.2.2.2.2 rejectResp rfl
  exact ⟨h5.1, h5.2.1, h5.2.2, h.2.2.2.1, h.1⟩

/-- C10: an `App` built with `App::new` on which no pre or post hook has been
configured (routes installed through `App::routes`) has identity hooks: the
default pre hook returns the request as-is, the default post hook returns the
response as-is, and `serve` is exactly routing plus handler invocation plus
error mapping applied to the unmodified request, its response returned
unchanged. -/
theorem app_new_identity_hooks {S : Type} (state : S)
    (routes : List (String × Route (HandlerFn S))) (app : App S) (addr : SocketAddr)
    (req : Request) (h : App.routes (App.new state) routes = Except.ok app) :
    (∀ rq, (App.new state).pre rq = Except.ok rq) ∧
    (∀ resp, (App.new state).post resp = resp) ∧
    app.pre req = Except.ok req ∧
    (∀ resp, app.post resp = resp) ∧
    app.state = state ∧
    App.serve app addr req =
      (match App.routerFn state addr req app.router with
       | Except.ok resp => resp
       | Except.error e => e.response) := by
  unfold App.routes at h
  cases hn : Router.new routes with
  | error msg =>
    rw [hn] at h
    exact absurd h (by simp [Except.map])
  | ok router =>
    rw [hn] at h
    have happ : app = { App.new state with router := router } := by
      simp only [Except.map, Except.ok.injEq] at h
      exact h.symm
    subst happ
    refine ⟨fun rq => rfl, fun resp => rfl, rfl, fun resp => rfl, rfl, ?_⟩
    unfold App.serve
    rfl

/-- Witness for C10: the freshly built application with no routes and no hooks
serves exactly the raw routing pipeline's response. -/
theorem app_new_identity_hooks_witness :
    App.serve (App.new ()) exAddr exReq =
      (match App.routerFn () exAddr exReq (App.new ()).router with
       | Except.ok resp => resp
       | Except.error e => e.response) :=
  (app_new_identity_hooks () [] (App.new ()) exAddr exReq rfl).2.2.2.2.2
